import Mathlib

/-!
Verification of the parallel RLE compression tool (src/Task2.cpp).

Bytes are modelled as natural numbers (the byte values 0..255 carried by
`std::vector<char>`); a `ByteBuffer` is a `List Nat`.  Each C++ loop becomes a
recursive Lean function on the same indices the source uses, and the two
file-level operations become functions returning `Option ByteBuffer`
(`none` models the early-return error paths that write no output file).
The fork-join dispatcher writes chunk `i`'s result into slot `i` and
concatenates the slots after joining all threads, so its output is embedded
as the concatenation, in chunk index order, of the per-chunk results.
-/

namespace RLETool

/-- A byte buffer: the contents of a `std::vector<char>`, one natural number
per byte value. -/
abbrev ByteBuffer := List Nat

/-- Inner `while` loop of `compressRLEChunk` (src/Task2.cpp:16-18): starting
from `count`, keep incrementing while `i + count < endIdx`, the byte at
`i + count` still equals `c`, and `count < 255`. -/
def countRun (data : ByteBuffer) (c i endIdx count : Nat) : Nat :=
  if i + count < endIdx ∧ data.getD (i + count) 0 = c ∧ count < 255 then
    countRun data c i endIdx (count + 1)
  else count
termination_by endIdx - (i + count)
decreasing_by omega

/-- The initial `count` never exceeds the loop's result. -/
theorem le_countRun (data : ByteBuffer) (c i endIdx : Nat) :
    ∀ count, count ≤ countRun data c i endIdx count := by
  refine countRun.induct data c i endIdx
    (fun count => count ≤ countRun data c i endIdx count) ?_ ?_
  · intro x h ih
    rw [countRun, if_pos h]
    omega
  · intro x h
    rw [countRun, if_neg h]

/-- `compressRLEChunk` (src/Task2.cpp:11-24): RLE-encode the half-open range
`[start, endIdx)` of `data`, emitting `(value, count)` byte pairs with the
run length capped at 255. -/
def compressRLEChunk (data : ByteBuffer) (start endIdx : Nat) : ByteBuffer :=
  if _h : start < endIdx then
    data.getD start 0 :: countRun data (data.getD start 0) start endIdx 1 ::
      compressRLEChunk data (start + countRun data (data.getD start 0) start endIdx 1) endIdx
  else []
termination_by endIdx - start
decreasing_by
  have := le_countRun data (data.getD start 0) start endIdx 1
  omega

/-- Unfolding equation for one iteration of `compressRLEChunk`'s outer loop. -/
theorem compressRLEChunk_step (data : ByteBuffer) (start endIdx : Nat)
    (h : start < endIdx) :
    compressRLEChunk data start endIdx =
      data.getD start 0 :: countRun data (data.getD start 0) start endIdx 1 ::
        compressRLEChunk data (start + countRun data (data.getD start 0) start endIdx 1) endIdx := by
  rw [compressRLEChunk]
  simp [h]

/-- `compressRLEChunk` on an exhausted range emits nothing. -/
theorem compressRLEChunk_done (data : ByteBuffer) (start endIdx : Nat)
    (h : ¬ start < endIdx) : compressRLEChunk data start endIdx = [] := by
  rw [compressRLEChunk]
  simp [h]

/-- The `for` loop of `decompressRLEChunk` (src/Task2.cpp:34-38): walk the
range two bytes at a time, appending `count` copies of the value byte, where
the count byte is read back as an `unsigned char` (hence `% 256`). -/
def expandPairs (data : ByteBuffer) (i endIdx : Nat) : ByteBuffer :=
  if i < endIdx then
    List.replicate (data.getD (i + 1) 0 % 256) (data.getD i 0) ++
      expandPairs data (i + 2) endIdx
  else []
termination_by endIdx - i
decreasing_by omega

/-- The guard of `decompressRLEChunk` (src/Task2.cpp:29): an odd-length range
makes the function print "Invalid compressed chunk size" to `stderr`; this
Bool records whether that error report fires. -/
def decompressChunkSizeError (start endIdx : Nat) : Bool :=
  (endIdx - start) % 2 != 0

/-- `decompressRLEChunk` (src/Task2.cpp:27-40): on an odd-length range report
the error and return the (still empty) output vector; otherwise expand every
`(value, count)` pair of the range. -/
def decompressRLEChunk (data : ByteBuffer) (start endIdx : Nat) : ByteBuffer :=
  if decompressChunkSizeError start endIdx then []
  else expandPairs data start endIdx

/-- Worker-count policy, computed identically in `compressFile`
(src/Task2.cpp:101-102) and `decompressFile` (src/Task2.cpp:170-171):
`std::thread::hardware_concurrency()`, replaced by 2 when that call
returns 0. -/
def workerCount (hardwareConcurrency : Nat) : Nat :=
  if hardwareConcurrency = 0 then 2 else hardwareConcurrency

/-- Start offset of chunk `i` in `compressFile`'s partition
(src/Task2.cpp:111): `i * chunkSize` with `chunkSize = L / W`. -/
def chunkStart (L W i : Nat) : Nat := i * (L / W)

/-- End offset of chunk `i` (src/Task2.cpp:112): the last chunk ends at `L`,
every other chunk at `start + chunkSize`. -/
def chunkEnd (L W i : Nat) : Nat :=
  if i = W - 1 then L else i * (L / W) + L / W

/-- Merged output of the compression dispatcher (src/Task2.cpp:105-125):
chunk `i` is compressed into slot `i` by its own thread, and after joining
all threads the slots are concatenated in chunk index order. -/
def compressChunks (data : ByteBuffer) (numThreads : Nat) : ByteBuffer :=
  ((List.range numThreads).map (fun i =>
    compressRLEChunk data (chunkStart data.length numThreads i)
      (chunkEnd data.length numThreads i))).flatten

/-- Container construction of `compressFile` (src/Task2.cpp:132-141): header
byte 85 (`'U'`) and the raw data when the merged compression is not strictly
smaller, otherwise header byte 67 (`'C'`) and the compressed bytes. -/
def encodeContainer (data : ByteBuffer) (numThreads : Nat) : ByteBuffer :=
  if (compressChunks data numThreads).length ≥ data.length then 85 :: data
  else 67 :: compressChunks data numThreads

/-- The in-memory data path of `compressFile` (src/Task2.cpp:94-148): an empty
input buffer is rejected ("Failed to read input file or file is empty") and no
container is produced; otherwise the container is built and written. -/
def compressFile (data : ByteBuffer) (numThreads : Nat) : Option ByteBuffer :=
  if data.isEmpty then none
  else some (encodeContainer data numThreads)

/-- Merged output of the decompression dispatcher (src/Task2.cpp:173-198)
over the payload `raw` (the container minus its header byte): partition the
pair count `raw.length / 2` over the threads, hand each thread the byte slice
`[startPair * 2, endPair * 2)` as a fresh vector, decompress each slice, and
concatenate the slots in chunk index order after joining. -/
def decompressChunks (raw : ByteBuffer) (numThreads : Nat) : ByteBuffer :=
  ((List.range numThreads).map (fun i =>
    let startPair := i * (raw.length / 2 / numThreads)
    let endPair := if i = numThreads - 1 then raw.length / 2
      else startPair + raw.length / 2 / numThreads
    decompressRLEChunk ((raw.drop (startPair * 2)).take (endPair * 2 - startPair * 2))
      0 (endPair * 2 - startPair * 2))).flatten

/-- The in-memory data path of `decompressFile` (src/Task2.cpp:157-222): an
empty input is rejected; header byte 67 (`'C'`) runs the decompression
dispatcher on the payload; header byte 85 (`'U'`) returns the payload
verbatim; any other header is "Unknown file format header" and the function
returns without producing output. -/
def decompressFile (data : ByteBuffer) (numThreads : Nat) : Option ByteBuffer :=
  if data.length < 1 then none
  else if data.getD 0 0 = 67 then some (decompressChunks data.tail numThreads)
  else if data.getD 0 0 = 85 then some data.tail
  else none

/-- Sequential expansion of a flat list of `(value, count)` pairs; the
reference semantics a single-chunk decode follows. -/
def expandAll : ByteBuffer → ByteBuffer
  | c :: n :: rest => List.replicate (n % 256) c ++ expandAll rest
  | _ => []

/-- Sum of the count bytes (read as `unsigned char`) over the pairs of a
range, mirroring the traversal of `expandPairs`. -/
def countSum (data : ByteBuffer) (i endIdx : Nat) : Nat :=
  if i < endIdx then
    data.getD (i + 1) 0 % 256 + countSum data (i + 2) endIdx
  else 0
termination_by endIdx - i
decreasing_by omega

/-- A flat pair list whose count fields all lie in `1..255`. -/
def pairsBounded : ByteBuffer → Prop
  | [] => True
  | _ :: n :: rest => 1 ≤ n ∧ n ≤ 255 ∧ pairsBounded rest
  | [_] => False

/-- The run-counting loop respects its 255 cap. -/
theorem countRun_le_255 (data : ByteBuffer) (c i endIdx : Nat) :
    ∀ count, count ≤ 255 → countRun data c i endIdx count ≤ 255 := by
  refine countRun.induct data c i endIdx
    (fun count => count ≤ 255 → countRun data c i endIdx count ≤ 255) ?_ ?_
  · intro x h ih _
    obtain ⟨h1, h2, h3⟩ := h
    rw [countRun, if_pos ⟨h1, h2, h3⟩]
    exact ih (by omega)
  · intro x h hx
    rw [countRun, if_neg h]
    exact hx

/-- The run-counting loop never counts past the end of the range. -/
theorem countRun_add_le (data : ByteBuffer) (c i endIdx : Nat) :
    ∀ count, i + count ≤ endIdx → i + countRun data c i endIdx count ≤ endIdx := by
  refine countRun.induct data c i endIdx
    (fun count => i + count ≤ endIdx → i + countRun data c i endIdx count ≤ endIdx) ?_ ?_
  · intro x h ih _
    obtain ⟨h1, h2, h3⟩ := h
    rw [countRun, if_pos ⟨h1, h2, h3⟩]
    exact ih (by omega)
  · intro x h hx
    rw [countRun, if_neg h]
    exact hx

/-- Every byte offset the loop stepped over holds the run's value. -/
theorem countRun_run (data : ByteBuffer) (c i endIdx : Nat) :
    ∀ count, ∀ j, count ≤ j → j < countRun data c i endIdx count →
      data.getD (i + j) 0 = c := by
  refine countRun.induct data c i endIdx
    (fun count => ∀ j, count ≤ j → j < countRun data c i endIdx count →
      data.getD (i + j) 0 = c) ?_ ?_
  · intro x h ih j hj1 hj2
    obtain ⟨h1, h2, h3⟩ := h
    rcases Nat.eq_or_lt_of_le hj1 with rfl | hlt
    · exact h2
    · rw [countRun, if_pos ⟨h1, h2, h3⟩] at hj2
      exact ih j hlt hj2
  · intro x h j hj1 hj2
    rw [countRun, if_neg h] at hj2
    omega

/-- Reading inside the window `[s, e)` through the copied slice
`(data.drop s).take (e - s)` is the same as reading `data` directly. -/
theorem getD_slice (data : ByteBuffer) (s e j : Nat) (hj : j < e - s) :
    ((data.drop s).take (e - s)).getD j 0 = data.getD (s + j) 0 := by
  simp [List.getD_eq_getElem?_getD, List.getElem?_take, hj, List.getElem?_drop]

/-- The run-counting loop sees the same bytes through a copied slice of the
range as through the original buffer. -/
theorem countRun_slice (data : ByteBuffer) (c s e k : Nat) :
    ∀ count, countRun ((data.drop s).take (e - s)) c k (e - s) count =
      countRun data c (s + k) e count := by
  refine countRun.induct ((data.drop s).take (e - s)) c k (e - s)
    (fun count => countRun ((data.drop s).take (e - s)) c k (e - s) count =
      countRun data c (s + k) e count) ?_ ?_
  · intro x h ih
    obtain ⟨h1, h2, h3⟩ := h
    have hg : data.getD (s + k + x) 0 = c := by
      rw [Nat.add_assoc, ← getD_slice data s e (k + x) h1]
      exact h2
    rw [countRun, if_pos ⟨h1, h2, h3⟩, ih]
    conv_rhs => rw [countRun]
    rw [if_pos ⟨by omega, hg, h3⟩]
  · intro x h
    rw [countRun, if_neg h]
    have hcond : ¬ (s + k + x < e ∧ data.getD (s + k + x) 0 = c ∧ x < 255) := by
      rintro ⟨g1, g2, g3⟩
      apply h
      have h1 : k + x < e - s := by omega
      refine ⟨h1, ?_, g3⟩
      rw [getD_slice data s e (k + x) h1, ← Nat.add_assoc]
      exact g2
    conv_rhs => rw [countRun]
    rw [if_neg hcond]

/-- Chunk-local independence of the encoder: compressing the window
`[s + k, e)` of `data` is the same as compressing the copied slice
`(data.drop s).take (e - s)` from position `k`. -/
theorem compressRLEChunk_slice (data : ByteBuffer) (s e : Nat) :
    ∀ k, compressRLEChunk ((data.drop s).take (e - s)) k (e - s) =
      compressRLEChunk data (s + k) e := by
  have main : ∀ k r, r = e - s →
      compressRLEChunk ((data.drop s).take (e - s)) k r =
        compressRLEChunk data (s + k) e := by
    refine compressRLEChunk.induct ((data.drop s).take (e - s))
      (fun k r => r = e - s →
        compressRLEChunk ((data.drop s).take (e - s)) k r =
          compressRLEChunk data (s + k) e) ?_ ?_
    · intro k r hk ih hr
      subst hr
      have hke : s + k < e := by omega
      have hgd : ((data.drop s).take (e - s)).getD k 0 = data.getD (s + k) 0 :=
        getD_slice data s e k hk
      have hcnt : countRun ((data.drop s).take (e - s)) (data.getD (s + k) 0)
            k (e - s) 1 = countRun data (data.getD (s + k) 0) (s + k) e 1 :=
        countRun_slice data (data.getD (s + k) 0) s e k 1
      have ih2 := ih rfl
      rw [hgd, hcnt] at ih2
      rw [compressRLEChunk_step _ _ _ hk, compressRLEChunk_step _ _ _ hke,
        hgd, hcnt, ih2, Nat.add_assoc]
    · intro k r hk hr
      subst hr
      rw [compressRLEChunk_done _ _ _ hk,
        compressRLEChunk_done data (s + k) e (by omega)]
  intro k
  exact main k (e - s) rfl

/-- The encoder always emits whole pairs: its output length is even. -/
theorem compressRLEChunk_length_even (data : ByteBuffer) :
    ∀ start endIdx, (compressRLEChunk data start endIdx).length % 2 = 0 := by
  refine compressRLEChunk.induct data
    (fun start endIdx => (compressRLEChunk data start endIdx).length % 2 = 0) ?_ ?_
  · intro start endIdx h ih
    rw [compressRLEChunk_step _ _ _ h]
    simp only [List.length_cons]
    omega
  · intro start endIdx h
    rw [compressRLEChunk_done _ _ _ h]
    rfl

/-- Every count byte the encoder emits lies in `1..255`. -/
theorem compressRLEChunk_pairsBounded (data : ByteBuffer) :
    ∀ start endIdx, pairsBounded (compressRLEChunk data start endIdx) := by
  refine compressRLEChunk.induct data
    (fun start endIdx => pairsBounded (compressRLEChunk data start endIdx)) ?_ ?_
  · intro start endIdx h ih
    rw [compressRLEChunk_step _ _ _ h]
    exact ⟨le_countRun data (data.getD start 0) start endIdx 1,
      countRun_le_255 data (data.getD start 0) start endIdx 1 (by omega), ih⟩
  · intro start endIdx h
    rw [compressRLEChunk_done _ _ _ h]
    trivial

/-- Expanding the encoder's output recovers exactly the encoded window of the
buffer: `compressRLEChunk` is a right inverse of sequential pair expansion. -/
theorem expandAll_compressRLEChunk (data : ByteBuffer) :
    ∀ start endIdx, endIdx ≤ data.length →
      expandAll (compressRLEChunk data start endIdx) =
        (data.drop start).take (endIdx - start) := by
  refine compressRLEChunk.induct data
    (fun start endIdx => endIdx ≤ data.length →
      expandAll (compressRLEChunk data start endIdx) =
        (data.drop start).take (endIdx - start)) ?_ ?_
  · intro start endIdx h ih hlen
    have hcnt1 : 1 ≤ countRun data (data.getD start 0) start endIdx 1 :=
      le_countRun data (data.getD start 0) start endIdx 1
    have hcnt255 : countRun data (data.getD start 0) start endIdx 1 ≤ 255 :=
      countRun_le_255 data (data.getD start 0) start endIdx 1 (by omega)
    have hcnte : start + countRun data (data.getD start 0) start endIdx 1 ≤ endIdx :=
      countRun_add_le data (data.getD start 0) start endIdx 1 (by omega)
    set cnt := countRun data (data.getD start 0) start endIdx 1 with hc
    rw [compressRLEChunk_step _ _ _ h]
    show List.replicate (cnt % 256) (data.getD start 0) ++
      expandAll (compressRLEChunk data (start + cnt) endIdx) = _
    rw [Nat.mod_eq_of_lt (by omega), ih hlen]
    have hrep : (data.drop start).take cnt =
        List.replicate cnt (data.getD start 0) := by
      rw [List.eq_replicate_iff]
      constructor
      · rw [List.length_take, List.length_drop]
        omega
      · intro b hb
        rw [List.mem_iff_getElem] at hb
        obtain ⟨j, hjlt, hjb⟩ := hb
        have hjcnt : j < cnt := by
          have := hjlt
          rw [List.length_take, List.length_drop] at this
          omega
        have hjlen : start + j < data.length := by omega
        have hbv : b = data.getD (start + j) 0 := by
          rw [← hjb, List.getElem_take, List.getElem_drop,
            List.getD_eq_getElem data 0 hjlen]
        rcases Nat.eq_zero_or_pos j with rfl | hj
        · simpa using hbv
        · rw [hbv]
          exact countRun_run data (data.getD start 0) start endIdx 1 j hj hjcnt
    have h2 : endIdx - (start + cnt) = endIdx - start - cnt := by omega
    rw [← hrep, h2]
    conv_rhs => rw [(by omega : endIdx - start = cnt + (endIdx - start - cnt)),
      List.take_add, List.drop_drop]
  · intro start endIdx h _
    rw [compressRLEChunk_done _ _ _ h,
      (by omega : endIdx - start = 0)]
    rfl

/-- Unfolding equation for one iteration of the decoder's `for` loop. -/
theorem expandPairs_step (data : ByteBuffer) (i endIdx : Nat) (h : i < endIdx) :
    expandPairs data i endIdx =
      List.replicate (data.getD (i + 1) 0 % 256) (data.getD i 0) ++
        expandPairs data (i + 2) endIdx := by
  rw [expandPairs]
  simp [h]

/-- The decoder's loop on an exhausted range emits nothing. -/
theorem expandPairs_done (data : ByteBuffer) (i endIdx : Nat)
    (h : ¬ i < endIdx) : expandPairs data i endIdx = [] := by
  rw [expandPairs]
  simp [h]

/-- Pair expansion splits at any pair-aligned midpoint. -/
theorem expandPairs_split (data : ByteBuffer) :
    ∀ n s m e, m - s = n → s ≤ m → m ≤ e → (m - s) % 2 = 0 →
      expandPairs data s e = expandPairs data s m ++ expandPairs data m e := by
  intro n
  induction n using Nat.strong_induction_on with
  | _ n ih =>
    intro s m e hn h1 h2 hpar
    by_cases hs : s < m
    · have hse : s < e := lt_of_lt_of_le hs h2
      rw [expandPairs_step data s e hse, expandPairs_step data s m hs,
        List.append_assoc]
      congr 1
      exact ih (m - (s + 2)) (by omega) (s + 2) m e rfl (by omega) h2 (by omega)
    · have hsm : s = m := by omega
      subst hsm
      rw [expandPairs_done data s s (by omega)]
      rfl

/-- Pair expansion sees the same bytes through a copied pair-aligned slice of
the range as through the original buffer. -/
theorem expandPairs_slice (data : ByteBuffer) (s e : Nat)
    (hpar : (e - s) % 2 = 0) :
    ∀ n k, e - s - k = n → k % 2 = 0 →
      expandPairs ((data.drop s).take (e - s)) k (e - s) =
        expandPairs data (s + k) e := by
  intro n
  induction n using Nat.strong_induction_on with
  | _ n ih =>
    intro k hn hk
    by_cases hlt : k < e - s
    · have hke : s + k < e := by omega
      have hk1 : k + 1 < e - s := by omega
      rw [expandPairs_step _ _ _ hlt, expandPairs_step data _ _ hke,
        getD_slice data s e k hlt, getD_slice data s e (k + 1) hk1,
        ← Nat.add_assoc]
      congr 1
      have := ih (e - s - (k + 2)) (by omega) (k + 2) rfl (by omega)
      rw [this, Nat.add_assoc]
    · rw [expandPairs_done _ _ _ hlt,
        expandPairs_done data (s + k) e (by omega)]

/-- A whole-buffer pair expansion is the sequential expansion `expandAll`. -/
theorem expandPairs_shift (x y : Nat) (E : ByteBuffer) :
    ∀ n k e, e - k = n →
      expandPairs (x :: y :: E) (k + 2) e = expandPairs E k (e - 2) := by
  intro n
  induction n using Nat.strong_induction_on with
  | _ n ih =>
    intro k e hn
    by_cases hlt : k + 2 < e
    · have hlt2 : k < e - 2 := by omega
      rw [expandPairs_step _ _ _ hlt, expandPairs_step E _ _ hlt2]
      have g1 : (x :: y :: E).getD (k + 2) 0 = E.getD k 0 := by
        simp [List.getD_cons_succ]
      have g2 : (x :: y :: E).getD (k + 2 + 1) 0 = E.getD (k + 1) 0 := by
        simp [(by omega : k + 2 + 1 = k + 1 + 1 + 1), List.getD_cons_succ]
      rw [g1, g2]
      congr 1
      exact ih (e - (k + 2)) (by omega) (k + 2) e rfl
    · rw [expandPairs_done _ _ _ hlt,
        expandPairs_done E k (e - 2) (by omega)]

/-- On an even-length buffer, indexed pair expansion from the start equals the
structural expansion `expandAll`. -/
theorem expandPairs_eq_expandAll :
    ∀ n (E : ByteBuffer), E.length = n → E.length % 2 = 0 →
      expandPairs E 0 E.length = expandAll E := by
  intro n
  induction n using Nat.strong_induction_on with
  | _ n ih =>
    intro E hlen hpar
    match E with
    | [] => rw [expandPairs_done _ _ _ (by simp)]; rfl
    | [x] => simp at hpar
    | x :: y :: rest =>
      have hL : (x :: y :: rest).length = rest.length + 2 := by simp
      rw [expandPairs_step _ _ _ (by simp)]
      have hsh := expandPairs_shift x y rest ((x :: y :: rest).length - 0) 0
        (x :: y :: rest).length rfl
      rw [(by rfl : (0:Nat) + 2 = 2)] at hsh
      rw [hsh]
      have hrest : expandPairs rest 0 rest.length = expandAll rest := by
        refine ih rest.length (by omega) rest rfl ?_
        simp [hL] at hpar
        omega
      rw [hL, (by omega : rest.length + 2 - 2 = rest.length), hrest]
      simp [expandAll, List.getD_cons_zero, List.getD_cons_succ]

/-- `expandAll` distributes over concatenation at a pair boundary. -/
theorem expandAll_append :
    ∀ n (A B : ByteBuffer), A.length = n → A.length % 2 = 0 →
      expandAll (A ++ B) = expandAll A ++ expandAll B := by
  intro n
  induction n using Nat.strong_induction_on with
  | _ n ih =>
    intro A B hlen hpar
    match A with
    | [] => simp [expandAll]
    | [x] => simp at hpar
    | x :: y :: rest =>
      have hL : (x :: y :: rest).length = rest.length + 2 := by simp
      have hrest := ih rest.length (by omega) rest B rfl
        (by simp [hL] at hpar; omega)
      simp only [List.cons_append]
      show List.replicate (y % 256) x ++ expandAll (rest ++ B) = _
      rw [hrest]
      simp [expandAll, List.append_assoc]

/-- `expandAll` of a concatenation of even-length blocks is the concatenation
of the expansions. -/
theorem expandAll_flatten :
    ∀ Ls : List ByteBuffer, (∀ l ∈ Ls, l.length % 2 = 0) →
      expandAll Ls.flatten = (Ls.map expandAll).flatten := by
  intro Ls
  induction Ls with
  | nil => intro _; rfl
  | cons l ls ihl =>
    intro h
    simp only [List.flatten_cons, List.map_cons]
    rw [expandAll_append l.length l ls.flatten rfl (h l (by simp)),
      ihl (fun x hx => h x (by simp [hx]))]

/-- Boundary `i` of the source's partition of a length `L` over `W` workers:
boundaries `0, L/W, 2*(L/W), ..., (W-1)*(L/W), L`; chunk `i` of the partition
is `[partitionBound L W i, partitionBound L W (i+1))`. -/
def partitionBound (L W i : Nat) : Nat :=
  if i < W then i * (L / W) else L

/-- For a non-last chunk the partition boundary is the chunk start. -/
theorem chunkStart_eq_partitionBound (L W i : Nat) (hi : i < W) :
    chunkStart L W i = partitionBound L W i := by
  rw [chunkStart, partitionBound, if_pos hi]

/-- The chunk end of chunk `i` is the next partition boundary. -/
theorem chunkEnd_eq_partitionBound (L W i : Nat) (hW : 1 ≤ W) (hi : i < W) :
    chunkEnd L W i = partitionBound L W (i + 1) := by
  rw [chunkEnd, partitionBound]
  by_cases h : i = W - 1
  · subst h
    rw [if_pos rfl, if_neg (by omega)]
  · rw [if_neg h, if_pos (by omega), Nat.succ_mul]

/-- Partition boundaries never pass the buffer length. -/
theorem partitionBound_le (L W : Nat) : ∀ i, partitionBound L W i ≤ L := by
  intro i
  rw [partitionBound]
  by_cases h : i < W
  · rw [if_pos h]
    calc i * (L / W) ≤ W * (L / W) := Nat.mul_le_mul_right _ (by omega)
      _ ≤ L := by rw [Nat.mul_comm]; exact Nat.div_mul_le_self L W
  · rw [if_neg h]

/-- Partition boundaries are monotone. -/
theorem partitionBound_mono (L W : Nat) :
    ∀ i, partitionBound L W i ≤ partitionBound L W (i + 1) := by
  intro i
  by_cases h : i + 1 < W
  · rw [partitionBound, partitionBound, if_pos (by omega), if_pos h]
    exact Nat.mul_le_mul_right _ (by omega)
  · conv_rhs => rw [partitionBound]
    rw [if_neg h]
    exact partitionBound_le L W i

/-- The first partition boundary is the start of the buffer. -/
theorem partitionBound_zero (L W : Nat) (hW : 1 ≤ W) :
    partitionBound L W 0 = 0 := by
  rw [partitionBound, if_pos (by omega), Nat.zero_mul]

/-- The last partition boundary is the end of the buffer. -/
theorem partitionBound_last (L W : Nat) : partitionBound L W W = L := by
  rw [partitionBound, if_neg (by omega)]

/-- Monotone step bounds chain to the whole range. -/
theorem chain_le (f : Nat → Nat) :
    ∀ n, (∀ i, i < n → f i ≤ f (i + 1)) → f 0 ≤ f n := by
  intro n
  induction n with
  | zero => intro _; exact le_refl _
  | succ m ihm =>
    intro h
    exact le_trans (ihm (fun i hi => h i (by omega))) (h m (by omega))

/-- Concatenating consecutive windows of a buffer, cut at monotone
boundaries, gives the window between the outer boundaries. -/
theorem flatten_slices (data : ByteBuffer) (f : Nat → Nat) :
    ∀ n, (∀ i, i < n → f i ≤ f (i + 1)) →
      ((List.range n).map (fun i =>
        (data.drop (f i)).take (f (i + 1) - f i))).flatten =
        (data.drop (f 0)).take (f n - f 0) := by
  intro n
  induction n with
  | zero => intro _; simp
  | succ m ihm =>
    intro h
    rw [List.range_succ, List.map_append, List.flatten_append,
      ihm (fun i hi => h i (by omega))]
    simp only [List.map_cons, List.map_nil, List.flatten_cons,
      List.flatten_nil, List.append_nil]
    have h0m : f 0 ≤ f m := chain_le f m (fun i hi => h i (by omega))
    have hmm : f m ≤ f (m + 1) := h m (by omega)
    conv_rhs => rw [(by omega : f (m + 1) - f 0 = (f m - f 0) + (f (m + 1) - f m)),
      List.take_add]
    congr 1
    rw [List.drop_drop, (by omega : f 0 + (f m - f 0) = f m)]

/-- Concatenating pair expansions of consecutive even-aligned windows gives
the pair expansion of the window between the outer boundaries. -/
theorem flatten_expandPairs (data : ByteBuffer) (f : Nat → Nat) :
    ∀ n, (∀ i, i < n → f i ≤ f (i + 1)) → (∀ i, f i % 2 = 0) →
      ((List.range n).map (fun i =>
        expandPairs data (f i) (f (i + 1)))).flatten =
        expandPairs data (f 0) (f n) := by
  intro n
  induction n with
  | zero =>
    intro _ _
    rw [expandPairs_done data (f 0) (f 0) (by omega)]
    simp
  | succ m ihm =>
    intro h hp
    rw [List.range_succ, List.map_append, List.flatten_append,
      ihm (fun i hi => h i (by omega)) hp]
    simp only [List.map_cons, List.map_nil, List.flatten_cons,
      List.flatten_nil, List.append_nil]
    have h0m : f 0 ≤ f m := chain_le f m (fun i hi => h i (by omega))
    have hmm : f m ≤ f (m + 1) := h m (by omega)
    have hpar : (f m - f 0) % 2 = 0 := by
      have := hp 0
      have := hp m
      omega
    rw [← expandPairs_split data (f m - f 0) (f 0) (f m) (f (m + 1)) rfl h0m
      hmm hpar]

/-- Sequentially expanding the merged output of the compression dispatcher
recovers the input buffer exactly. -/
theorem expandAll_compressChunks (data : ByteBuffer) (W : Nat) (hW : 1 ≤ W) :
    expandAll (compressChunks data W) = data := by
  have hmapeq : (List.range W).map (fun i =>
      compressRLEChunk data (chunkStart data.length W i) (chunkEnd data.length W i)) =
      (List.range W).map (fun i => compressRLEChunk data
        (partitionBound data.length W i) (partitionBound data.length W (i + 1))) :=
    List.map_congr_left (fun i hi => by
      rw [List.mem_range] at hi
      rw [chunkStart_eq_partitionBound data.length W i hi,
        chunkEnd_eq_partitionBound data.length W i hW hi])
  rw [compressChunks, hmapeq, expandAll_flatten _ (by
      intro l hl
      rw [List.mem_map] at hl
      obtain ⟨i, -, rfl⟩ := hl
      exact compressRLEChunk_length_even data _ _), List.map_map]
  have hmapeq2 : (List.range W).map (expandAll ∘ fun i => compressRLEChunk data
      (partitionBound data.length W i) (partitionBound data.length W (i + 1))) =
      (List.range W).map (fun i =>
        (data.drop (partitionBound data.length W i)).take
          (partitionBound data.length W (i + 1) - partitionBound data.length W i)) :=
    List.map_congr_left (fun i _ => by
      simp only [Function.comp]
      exact expandAll_compressRLEChunk data _ _ (partitionBound_le data.length W (i + 1)))
  rw [hmapeq2,
    flatten_slices data (partitionBound data.length W) W
      (fun i _ => partitionBound_mono data.length W i),
    partitionBound_zero data.length W hW, partitionBound_last data.length W]
  simp

/-- The merged compression output has even length. -/
theorem compressChunks_length_even (data : ByteBuffer) (W : Nat) :
    (compressChunks data W).length % 2 = 0 := by
  rw [compressChunks]
  induction (List.range W) with
  | nil => rfl
  | cons i is ih =>
    simp only [List.map_cons, List.flatten_cons, List.length_append]
    have := compressRLEChunk_length_even data
      (chunkStart data.length W i) (chunkEnd data.length W i)
    omega

/-- Decompressing a copied pair-aligned slice of the payload expands exactly
the corresponding window of the payload. -/
theorem decompressRLEChunk_slice (data : ByteBuffer) (s e : Nat)
    (hpar : (e - s) % 2 = 0) :
    decompressRLEChunk ((data.drop s).take (e - s)) 0 (e - s) =
      expandPairs data s e := by
  rw [decompressRLEChunk, if_neg (by
    simp only [decompressChunkSizeError, Nat.sub_zero, bne_iff_ne, ne_eq,
      Decidable.not_not]
    exact hpar)]
  have := expandPairs_slice data s e hpar (e - s) 0 rfl (by omega)
  simpa using this

/-- The merged output of the decompression dispatcher is the sequential pair
expansion of the first `payload length / 2` pairs of the payload. -/
theorem decompressChunks_eq_expandPairs (raw : ByteBuffer) (W : Nat) (hW : 1 ≤ W) :
    decompressChunks raw W = expandPairs raw 0 (raw.length / 2 * 2) := by
  have hmap : decompressChunks raw W = ((List.range W).map (fun i =>
      expandPairs raw (partitionBound (raw.length / 2) W i * 2)
        (partitionBound (raw.length / 2) W (i + 1) * 2))).flatten := by
    rw [decompressChunks]
    congr 1
    refine List.map_congr_left ?_
    intro i hi
    rw [List.mem_range] at hi
    show decompressRLEChunk
        ((raw.drop (chunkStart (raw.length / 2) W i * 2)).take
          (chunkEnd (raw.length / 2) W i * 2 - chunkStart (raw.length / 2) W i * 2))
        0 (chunkEnd (raw.length / 2) W i * 2 - chunkStart (raw.length / 2) W i * 2) =
      expandPairs raw (partitionBound (raw.length / 2) W i * 2)
        (partitionBound (raw.length / 2) W (i + 1) * 2)
    rw [chunkStart_eq_partitionBound (raw.length / 2) W i hi,
      chunkEnd_eq_partitionBound (raw.length / 2) W i hW hi]
    exact decompressRLEChunk_slice raw _ _ (by omega)
  rw [hmap]
  have hfinal := flatten_expandPairs raw
    (fun i => partitionBound (raw.length / 2) W i * 2) W
    (fun i _ => by
      show partitionBound (raw.length / 2) W i * 2 ≤
        partitionBound (raw.length / 2) W (i + 1) * 2
      have := partitionBound_mono (raw.length / 2) W i
      omega)
    (fun i => by
      show partitionBound (raw.length / 2) W i * 2 % 2 = 0
      omega)
  rw [hfinal]
  show expandPairs raw (partitionBound (raw.length / 2) W 0 * 2)
      (partitionBound (raw.length / 2) W W * 2) =
    expandPairs raw 0 (raw.length / 2 * 2)
  rw [partitionBound_zero (raw.length / 2) W hW, partitionBound_last,
    Nat.zero_mul]

/-- Round-trip at the chunk-merge level: decompressing the merged compressed
stream with any worker count recovers the original buffer. -/
theorem decompressChunks_compressChunks (data : ByteBuffer) (W1 W2 : Nat)
    (hW1 : 1 ≤ W1) (hW2 : 1 ≤ W2) :
    decompressChunks (compressChunks data W1) W2 = data := by
  rw [decompressChunks_eq_expandPairs _ _ hW2]
  have heven := compressChunks_length_even data W1
  rw [(by omega : (compressChunks data W1).length / 2 * 2 =
    (compressChunks data W1).length)]
  rw [expandPairs_eq_expandAll (compressChunks data W1).length _ rfl heven]
  exact expandAll_compressChunks data W1 hW1

/-- On a constant buffer the run-counting loop runs to the end of the range
or to the 255 cap, whichever is closer. -/
theorem countRun_replicate (n c i e : Nat) (he : e ≤ n) :
    ∀ count, i + count ≤ e → count ≤ 255 →
      countRun (List.replicate n c) c i e count = min (e - i) 255 := by
  refine countRun.induct (List.replicate n c) c i e
    (fun count => i + count ≤ e → count ≤ 255 →
      countRun (List.replicate n c) c i e count = min (e - i) 255) ?_ ?_
  · intro x h ih hx1 hx2
    obtain ⟨h1, h2, h3⟩ := h
    rw [countRun, if_pos ⟨h1, h2, h3⟩]
    exact ih (by omega) (by omega)
  · intro x h hx1 hx2
    rw [countRun, if_neg h]
    have hB : i + x < e → (List.replicate n c).getD (i + x) 0 = c := by
      intro hh
      have hn : i + x < n := lt_of_lt_of_le hh he
      simp [List.getD_eq_getElem?_getD, List.getElem?_replicate, hn]
    have hdisj : i + x = e ∨ x = 255 := by
      by_contra hcon
      push_neg at hcon
      exact h ⟨by omega, hB (by omega), by omega⟩
    omega

/-- The decoder's output length is the sum of the count bytes of the range. -/
theorem expandPairs_length (data : ByteBuffer) :
    ∀ i endIdx, (expandPairs data i endIdx).length = countSum data i endIdx := by
  refine countSum.induct data
    (fun i endIdx => (expandPairs data i endIdx).length = countSum data i endIdx) ?_ ?_
  · intro i endIdx h ih
    rw [expandPairs_step data i endIdx h, countSum, if_pos h]
    simp [ih]
  · intro i endIdx h
    rw [expandPairs_done data i endIdx h, countSum, if_neg h]
    rfl

/-- Compressing an empty buffer produces no output from any chunk. -/
theorem compressChunks_nil (W : Nat) : compressChunks [] W = [] := by
  rw [compressChunks]
  have hmap : (List.range W).map (fun i =>
      compressRLEChunk [] (chunkStart (List.length ([] : ByteBuffer)) W i)
        (chunkEnd (List.length ([] : ByteBuffer)) W i)) =
      (List.range W).map (fun _ => ([] : ByteBuffer)) :=
    List.map_congr_left (fun i _ => compressRLEChunk_done _ _ _ (by
      simp [chunkStart, chunkEnd, Nat.zero_div]))
  rw [hmap]
  induction (List.range W) with
  | nil => rfl
  | cons x xs ih => simp [ih]

/-- C1: for every byte buffer `B` and worker counts `W1, W2 ≥ 1`, decoding
(with `W2` workers) the container produced by encoding `B` with `W1` workers
reproduces `B` exactly: the `'U'` branch returns the payload verbatim and the
`'C'` branch expands the merged chunk encodings back to the input. -/
theorem roundtrip_decode_encode (B : ByteBuffer) (W1 W2 : Nat)
    (hW1 : 1 ≤ W1) (hW2 : 1 ≤ W2) :
    decompressFile (encodeContainer B W1) W2 = some B := by
  rw [encodeContainer]
  by_cases h : (compressChunks B W1).length ≥ B.length
  · rw [if_pos h, decompressFile]
    simp only [List.length_cons, List.getD_cons_zero, List.tail_cons]
    rw [if_neg (by omega), if_neg (by omega), if_pos trivial]
  · rw [if_neg h, decompressFile]
    simp only [List.length_cons, List.getD_cons_zero, List.tail_cons]
    rw [if_neg (by omega), if_pos trivial,
      decompressChunks_compressChunks B W1 W2 hW1 hW2]

/-- Witness for C1 at a concrete buffer and worker counts. -/
theorem roundtrip_decode_encode_witness :
    decompressFile (encodeContainer [3, 3, 5] 2) 3 = some [3, 3, 5] :=
  roundtrip_decode_encode [3, 3, 5] 2 3 (by decide) (by decide)

/-- C2 fails on the code: decoding the container `'C' 0x41 0x02 0x42`, whose
payload has odd length 3, does not fail with a format error; `pairCount`
is `3 / 2 = 1`, so the trailing payload byte 0x42 is silently dropped and the
decode succeeds with the 2-byte output `0x41 0x41`. -/
theorem oddPayload_decode_truncates :
    decompressFile [67, 65, 2, 66] 2 = some [65, 65] := by
  rw [decompressFile]
  simp only [List.length_cons, List.length_nil, List.getD_cons_zero,
    List.tail_cons]
  rw [if_neg (by omega)]
  simp only [reduceIte]
  rw [decompressChunks_eq_expandPairs _ 2 (by omega)]
  norm_num
  simp [expandPairs]

/-- C3 counterexample: encoding a zero-length buffer does not yield the
1-byte `'U'` container; `compressFile` rejects the empty input as an error
and produces no container at all. -/
theorem encode_empty_rejected : ¬ compressFile [] 2 = some [85] := by
  rw [compressFile]
  simp

/-- C3 as amended: `compressFile` treats an empty input buffer as an error
(the same path as a failed read) and produces no container; the container
construction step alone would produce the 1-byte `'U'` container, and
decoding that container yields the zero-length buffer. -/
theorem empty_input_behavior (W : Nat) :
    compressFile [] W = none ∧ encodeContainer [] W = [85] ∧
      decompressFile [85] W = some [] := by
  refine ⟨by rw [compressFile]; rfl, ?_, ?_⟩
  · rw [encodeContainer, compressChunks_nil]
    simp
  · rw [decompressFile]
    simp

/-- C4: the container header is selected by comparing lengths: a strictly
smaller merged encoding gives a `'C'` container holding the encoded bytes,
anything else a `'U'` container holding the input verbatim; on the strictly
alternating buffer `0,1,0,1,0,1`, which RLE does not shrink, the container is
`'U'` with the buffer verbatim. -/
theorem container_header_selection (data : ByteBuffer) (W : Nat) :
    ((compressChunks data W).length < data.length →
      encodeContainer data W = 67 :: compressChunks data W) ∧
    (data.length ≤ (compressChunks data W).length →
      encodeContainer data W = 85 :: data) ∧
    encodeContainer [0, 1, 0, 1, 0, 1] 2 = 85 :: [0, 1, 0, 1, 0, 1] := by
  refine ⟨?_, ?_, ?_⟩
  · intro h
    rw [encodeContainer, if_neg (by omega)]
  · intro h
    rw [encodeContainer, if_pos (by omega)]
  · rw [encodeContainer]
    rw [show compressChunks [0, 1, 0, 1, 0, 1] 2 =
        [0, 1, 1, 1, 0, 1, 1, 1, 0, 1, 1, 1] from ?_]
    · norm_num
    · rw [compressChunks, (by rfl : List.range 2 = [0, 1])]
      simp only [List.map_cons, List.map_nil, List.flatten_cons,
        List.flatten_nil, List.append_nil]
      norm_num [chunkStart, chunkEnd]
      simp [compressRLEChunk, countRun]

/-- Witness for C4: both branches of the header selection at concrete
buffers. -/
theorem container_header_selection_witness :
    encodeContainer [7, 7, 7, 7] 1 = 67 :: compressChunks [7, 7, 7, 7] 1 ∧
      encodeContainer [0, 1] 1 = 85 :: [0, 1] := by
  have hc1 : compressChunks [7, 7, 7, 7] 1 = [7, 4] := by
    rw [compressChunks, (by rfl : List.range 1 = [0])]
    simp only [List.map_cons, List.map_nil, List.flatten_cons,
      List.flatten_nil, List.append_nil]
    norm_num [chunkStart, chunkEnd]
    simp [compressRLEChunk, countRun]
  have hc2 : compressChunks [0, 1] 1 = [0, 1, 1, 1] := by
    rw [compressChunks, (by rfl : List.range 1 = [0])]
    simp only [List.map_cons, List.map_nil, List.flatten_cons,
      List.flatten_nil, List.append_nil]
    norm_num [chunkStart, chunkEnd]
    simp [compressRLEChunk, countRun]
  exact ⟨(container_header_selection [7, 7, 7, 7] 1).1 (by rw [hc1]; norm_num),
    (container_header_selection [0, 1] 1).2.1 (by rw [hc2]; norm_num)⟩

/-- C5: every count byte the encoder emits lies in `1..255`, so a run longer
than 255 is split into consecutive pairs; in particular a single chunk of 300
bytes 0xAB encodes to exactly the two pairs (0xAB, 255), (0xAB, 45). -/
theorem run_cap :
    (∀ (data : ByteBuffer) (start endIdx : Nat),
      pairsBounded (compressRLEChunk data start endIdx)) ∧
    compressRLEChunk (List.replicate 300 171) 0 300 = [171, 255, 171, 45] := by
  refine ⟨fun data start endIdx =>
    compressRLEChunk_pairsBounded data start endIdx, ?_⟩
  have hg0 : (List.replicate 300 (171 : Nat)).getD 0 0 = 171 := by
    rw [List.getD_eq_getElem?_getD, List.getElem?_replicate, if_pos (by omega)]
    rfl
  have hg255 : (List.replicate 300 (171 : Nat)).getD 255 0 = 171 := by
    rw [List.getD_eq_getElem?_getD, List.getElem?_replicate, if_pos (by omega)]
    rfl
  have hc1 : countRun (List.replicate 300 171) 171 0 300 1 = 255 := by
    rw [countRun_replicate 300 171 0 300 (by omega) 1 (by omega) (by omega)]
    omega
  have hc2 : countRun (List.replicate 300 171) 171 255 300 1 = 45 := by
    rw [countRun_replicate 300 171 255 300 (by omega) 1 (by omega) (by omega)]
    omega
  rw [compressRLEChunk_step _ _ _ (by omega : (0:Nat) < 300), hg0, hc1]
  norm_num
  rw [compressRLEChunk_step _ _ _ (by omega : (255:Nat) < 300), hg255, hc2]
  norm_num
  exact compressRLEChunk_done _ _ _ (by omega)

/-- C6: the partitioner covers `[0, L)` with `W` contiguous non-overlapping
ranges: range `i` is `[i*(L/W), (i+1)*(L/W))` for `i < W-1` and the last
range ends at `L`, absorbing the remainder; when `L < W` some range is empty,
and an empty range encodes and decodes to empty output rather than an
error. -/
theorem partitioner_spec (L W : Nat) (hW : 1 ≤ W) :
    chunkStart L W 0 = 0 ∧
    chunkEnd L W (W - 1) = L ∧
    (∀ i, i + 1 < W → chunkEnd L W i = chunkStart L W (i + 1) ∧
      chunkEnd L W i = chunkStart L W i + L / W) ∧
    (∀ i, i < W → chunkStart L W i ≤ chunkEnd L W i) ∧
    (L < W → ∃ i, i < W ∧ chunkStart L W i = chunkEnd L W i) ∧
    (∀ (data : ByteBuffer) (i : Nat), compressRLEChunk data i i = [] ∧
      decompressRLEChunk data i i = []) := by
  refine ⟨by rw [chunkStart, Nat.zero_mul], ?_, ?_, ?_, ?_, ?_⟩
  · rw [chunkEnd, if_pos rfl]
  · intro i hi
    constructor
    · rw [chunkEnd, if_neg (by omega), chunkStart, Nat.succ_mul]
    · rw [chunkEnd, if_neg (by omega), chunkStart]
  · intro i hi
    rw [chunkStart_eq_partitionBound L W i hi,
      chunkEnd_eq_partitionBound L W i hW hi]
    exact partitionBound_mono L W i
  · intro hLW
    by_cases hw1 : W = 1
    · subst hw1
      refine ⟨0, by omega, ?_⟩
      rw [chunkStart, chunkEnd, if_pos rfl]
      omega
    · refine ⟨0, by omega, ?_⟩
      rw [chunkStart, chunkEnd, if_neg (by omega)]
      have : L / W = 0 := Nat.div_eq_of_lt hLW
      omega
  · intro data i
    refine ⟨compressRLEChunk_done data i i (by omega), ?_⟩
    rw [decompressRLEChunk,
      if_neg (by simp [decompressChunkSizeError])]
    exact expandPairs_done data i i (by omega)

/-- Witness for C6 at `L = 5, W = 3` plus the degenerate case
`L = 2 < W = 4`. -/
theorem partitioner_spec_witness :
    chunkStart 5 3 0 = 0 ∧ chunkEnd 5 3 2 = 5 ∧
      chunkEnd 5 3 0 = chunkStart 5 3 1 ∧
      (∃ i, i < 4 ∧ chunkStart 2 4 i = chunkEnd 2 4 i) ∧
      compressRLEChunk [9, 9] 1 1 = [] := by
  have h1 := partitioner_spec 5 3 (by decide)
  have h2 := partitioner_spec 2 4 (by decide)
  exact ⟨h1.1, h1.2.1, (h1.2.2.1 0 (by decide)).1,
    h2.2.2.2.2.1 (by decide), (h1.2.2.2.2.2 [9, 9] 1).1⟩

/-- C7: the dispatcher's output is the in-order concatenation of per-chunk
results, each chunk compressed as a standalone buffer (its output depends
only on its own bytes); a run never spans a chunk boundary: 8 bytes of 0x41
in one chunk give the single pair (0x41, 8), while a boundary at offset 4
gives (0x41, 4), (0x41, 4). -/
theorem dispatcher_concat_independent :
    (∀ (data : ByteBuffer) (s e : Nat),
      compressRLEChunk data s e =
        compressRLEChunk ((data.drop s).take (e - s)) 0 (e - s)) ∧
    compressChunks (List.replicate 8 65) 1 = [65, 8] ∧
    compressChunks (List.replicate 8 65) 2 = [65, 4, 65, 4] := by
  have hg : ∀ i : Nat, i < 8 → (List.replicate 8 (65 : Nat)).getD i 0 = 65 := by
    intro i hi
    rw [List.getD_eq_getElem?_getD, List.getElem?_replicate, if_pos hi]
    rfl
  have hrun : ∀ i : Nat, i < 8 →
      countRun (List.replicate 8 65) 65 i 8 1 = 8 - i := by
    intro i hi
    rw [countRun_replicate 8 65 i 8 (by omega) 1 (by omega) (by omega)]
    omega
  refine ⟨fun data s e => ?_, ?_, ?_⟩
  · have := compressRLEChunk_slice data s e 0
    rw [Nat.add_zero] at this
    exact this.symm
  · rw [compressChunks]
    simp only [List.length_replicate]
    rw [(by rfl : List.range 1 = [0])]
    simp only [List.map_cons, List.map_nil, List.flatten_cons,
      List.flatten_nil, List.append_nil]
    norm_num [chunkStart, chunkEnd]
    rw [compressRLEChunk_step _ _ _ (by omega : (0:Nat) < 8), hg 0 (by omega),
      hrun 0 (by omega)]
    norm_num
    exact compressRLEChunk_done _ _ _ (by omega)
  · rw [compressChunks]
    simp only [List.length_replicate]
    rw [(by rfl : List.range 2 = [0, 1])]
    simp only [List.map_cons, List.map_nil, List.flatten_cons,
      List.flatten_nil, List.append_nil]
    norm_num [chunkStart, chunkEnd]
    rw [compressRLEChunk_step _ _ _ (by omega : (0:Nat) < 4)]
    have hrun4 : countRun (List.replicate 8 65) 65 0 4 1 = 4 := by
      rw [countRun_replicate 8 65 0 4 (by omega) 1 (by omega) (by omega)]
      omega
    rw [hg 0 (by omega), hrun4]
    norm_num
    rw [compressRLEChunk_done _ _ _ (by omega),
      compressRLEChunk_step _ _ _ (by omega : (4:Nat) < 8), hg 4 (by omega),
      hrun 4 (by omega)]
    norm_num
    exact compressRLEChunk_done _ _ _ (by omega)

/-- Witness for C7: chunk independence evaluated at a concrete window. -/
theorem dispatcher_concat_independent_witness :
    compressRLEChunk [9, 9, 7] 1 3 =
      compressRLEChunk (([9, 9, 7].drop 1).take (3 - 1)) 0 (3 - 1) :=
  dispatcher_concat_independent.1 [9, 9, 7] 1 3

/-- C8: a container whose header byte is neither `'C'` (67) nor `'U'` (85)
fails decode with no output; a `'U'` container returns its payload
verbatim. -/
theorem header_rejection (h : Nat) (rest : ByteBuffer) (W : Nat) :
    (h ≠ 67 → h ≠ 85 → decompressFile (h :: rest) W = none) ∧
      decompressFile (85 :: rest) W = some rest := by
  constructor
  · intro h1 h2
    rw [decompressFile]
    simp only [List.length_cons, List.getD_cons_zero, List.tail_cons]
    rw [if_neg (by omega), if_neg h1, if_neg h2]
  · rw [decompressFile]
    simp only [List.length_cons, List.getD_cons_zero, List.tail_cons]
    rw [if_neg (by omega), if_neg (by omega), if_pos trivial]

/-- Witness for C8: header byte 88 (`'X'`) is rejected; `'U'` returns the
payload. -/
theorem header_rejection_witness :
    decompressFile [88, 1, 2] 2 = none ∧
      decompressFile [85, 1, 2] 2 = some [1, 2] :=
  ⟨(header_rejection 88 [1, 2] 2).1 (by decide) (by decide),
    (header_rejection 85 [1, 2] 2).2⟩

/-- C9 counterexample: when the host reports hardware concurrency 1, the
worker count used is 1, not at least 2; the fallback to 2 applies only to a
report of 0. -/
theorem workerCount_one : ¬ 2 ≤ workerCount 1 := by
  rw [workerCount]
  simp

/-- C9 as amended: the worker count used by both dispatchers is the host's
hardware concurrency, replaced by 2 exactly when the host reports 0; it is
always at least 1 but not always at least 2. -/
theorem workerCount_policy (hc : Nat) :
    1 ≤ workerCount hc ∧ workerCount 0 = 2 ∧ workerCount (hc + 1) = hc + 1 := by
  refine ⟨?_, rfl, rfl⟩
  rw [workerCount]
  by_cases h : hc = 0
  · rw [if_pos h]
    omega
  · rw [if_neg h]
    omega

/-- C10: on an even-length range the chunk decoder reports no error and
enforces no lower bound on count bytes: its output is the plain pair
expansion, whose length is the sum of the count bytes read as unsigned, and a
`(value, 0)` pair contributes no output bytes. -/
theorem decoder_accepts_zero_count :
    (∀ (data : ByteBuffer) (s e : Nat), (e - s) % 2 = 0 →
      decompressChunkSizeError s e = false ∧
      decompressRLEChunk data s e = expandPairs data s e ∧
      (decompressRLEChunk data s e).length = countSum data s e) ∧
    decompressRLEChunk [65, 0] 0 2 = [] ∧
    decompressRLEChunk [65, 0, 66, 3] 0 4 = [66, 66, 66] := by
  have hmain : ∀ (data : ByteBuffer) (s e : Nat), (e - s) % 2 = 0 →
      decompressChunkSizeError s e = false ∧
      decompressRLEChunk data s e = expandPairs data s e ∧
      (decompressRLEChunk data s e).length = countSum data s e := by
    intro data s e hpar
    have herr : decompressChunkSizeError s e = false := by
      simp [decompressChunkSizeError, hpar]
    have hval : decompressRLEChunk data s e = expandPairs data s e := by
      rw [decompressRLEChunk, herr]
      simp
    exact ⟨herr, hval, by rw [hval]; exact expandPairs_length data s e⟩
  refine ⟨hmain, ?_, ?_⟩
  · rw [(hmain [65, 0] 0 2 (by decide)).2.1]
    simp [expandPairs]
  · rw [(hmain [65, 0, 66, 3] 0 4 (by decide)).2.1]
    simp [expandPairs]

/-- Witness for C10 at an even-length range holding a zero count byte. -/
theorem decoder_accepts_zero_count_witness :
    decompressChunkSizeError 0 2 = false ∧
      (decompressRLEChunk [65, 0] 0 2).length = countSum [65, 0] 0 2 := by
  have h := decoder_accepts_zero_count.1 [65, 0] 0 2 (by decide)
  exact ⟨h.1, h.2.2⟩

end RLETool
